import Mathlib

/-!
Shallow embedding of the agent/algorithm core of the Unity-Lab (SLM-Lab)
reinforcement-learning framework: the action-selection policies in
`slm_lab/agent/algorithm/algorithm_util.py`, the SARSA training loop in
`slm_lab/agent/algorithm/sarsa.py`, and the random baseline agent in
`slm_lab/agent/algorithm/random.py`.

Modelling conventions:
* tensors of floats become lists over `ℚ` (over `ℝ` where `exp`/`log` appear);
* a neural net (`net.wrap_eval` composed with the state preprocessing of
  `create_torch_state`) is an opaque function from states to Q-value lists;
* every random draw the Python code makes (`np.random.rand()`,
  `np.random.randint(n)`, `np.random.choice(p=probs)`, `Normal.sample()`)
  is passed in explicitly: `rand` draws as a rational `r`, `randint(n)`
  draws as a natural `u < n`, `choice` draws as a uniform `u ∈ [0,1)`
  resolved by inverse-CDF sampling, and a normal sample as
  `mu + sigma * z` with `z` a standard-normal draw.
-/

namespace SlmLab

/-- A body, as used by the action policies: only its discrete action
dimension matters here. -/
structure Body where
  action_dim : ℕ

/-- `int(torch.max(out, dim=0)[1][0])`: the index of the first maximal
entry of a list of Q-values. -/
def torchMaxIdx : List ℚ → ℕ
  | [] => 0
  | [_] => 0
  | x :: y :: xs =>
    let j := torchMaxIdx (y :: xs)
    if x < (y :: xs).getD j 0 then j + 1 else 0

/-- `act_with_epsilon_greedy` from `algorithm_util.py`: with the uniform
draw `r` (from `np.random.rand()`) below `epsilon`, return the random
action `np.random.randint(body.action_dim)` — modelled as `u % action_dim`
for a uniform natural draw `u`, exactly uniform when `u` ranges over a
range whose size is a multiple of `action_dim`; otherwise return the
argmax of the net's Q-value output for the state. -/
def act_with_epsilon_greedy (body : Body) (state : σ) (net : σ → List ℚ)
    (epsilon : ℚ) (r : ℚ) (u : ℕ) : ℕ :=
  if epsilon > r then u % body.action_dim else torchMaxIdx (net state)

theorem torchMaxIdx_cons_cons (x y : ℚ) (ys : List ℚ) :
    torchMaxIdx (x :: y :: ys) =
      if x < (y :: ys).getD (torchMaxIdx (y :: ys)) 0
      then torchMaxIdx (y :: ys) + 1 else 0 := rfl

theorem torchMaxIdx_spec (l : List ℚ) (hl : l ≠ []) :
    torchMaxIdx l < l.length ∧ ∀ i < l.length, l.getD i 0 ≤ l.getD (torchMaxIdx l) 0 := by
  induction l with
  | nil => simp at hl
  | cons x xs ih =>
    cases xs with
    | nil =>
      refine ⟨by simp [torchMaxIdx], ?_⟩
      intro i hi
      have hi0 : i = 0 := by simpa using Nat.lt_one_iff.mp (by simpa using hi)
      simp [hi0, torchMaxIdx]
    | cons y ys =>
      obtain ⟨hlt, hmax⟩ := ih (by simp)
      by_cases hc : x < (y :: ys).getD (torchMaxIdx (y :: ys)) 0
      · rw [torchMaxIdx_cons_cons, if_pos hc]
        refine ⟨by simpa using hlt, ?_⟩
        intro i hi
        match i with
        | 0 => simpa using le_of_lt hc
        | Nat.succ i =>
          have := hmax i (by simpa using hi)
          simpa using this
      · rw [torchMaxIdx_cons_cons, if_neg hc]
        refine ⟨by simp, ?_⟩
        intro i hi
        match i with
        | 0 => simp
        | Nat.succ i =>
          have h1 := hmax i (by simpa using hi)
          have h2 : (y :: ys).getD (torchMaxIdx (y :: ys)) 0 ≤ x := le_of_not_lt hc
          simpa using le_trans h1 h2

/-- Claim C2: for every body with `action_dim ≥ 1` and every `epsilon ∈ [0,1]`,
`act_with_epsilon_greedy` takes the random branch exactly on the uniform draws
`r ∈ [0, epsilon)` (a set of probability `epsilon` inside `[0,1)`), and there
returns an integer uniform over `[0, action_dim)` (each action has exactly one
preimage among `action_dim` equiprobable draws); otherwise it returns the index
of the maximum entry of the net's Q-value output, and in particular for
`epsilon = 0` it always returns the greedy argmax action. -/
theorem act_with_epsilon_greedy_correct (body : Body) (state : σ) (net : σ → List ℚ)
    (epsilon : ℚ) (h0 : 0 ≤ epsilon) (h1 : epsilon ≤ 1)
    (hdim : 1 ≤ body.action_dim) (hout : (net state).length = body.action_dim) :
    ({r : ℚ | r ∈ Set.Ico (0 : ℚ) 1 ∧ epsilon > r} = Set.Ico 0 epsilon)
    ∧ (∀ r u, epsilon > r →
        act_with_epsilon_greedy body state net epsilon r u < body.action_dim
        ∧ ∀ a < body.action_dim,
          ((Finset.range body.action_dim).filter
            (fun u2 => act_with_epsilon_greedy body state net epsilon r u2 = a)).card = 1)
    ∧ (∀ r u, ¬ epsilon > r →
        act_with_epsilon_greedy body state net epsilon r u = torchMaxIdx (net state))
    ∧ (epsilon = 0 → ∀ r ∈ Set.Ico (0 : ℚ) 1, ∀ u,
        act_with_epsilon_greedy body state net epsilon r u = torchMaxIdx (net state))
    ∧ (torchMaxIdx (net state) < body.action_dim
        ∧ ∀ i < body.action_dim,
          (net state).getD i 0 ≤ (net state).getD (torchMaxIdx (net state)) 0) := by
  have hpos : 0 < body.action_dim := hdim
  refine ⟨?_, ?_, ?_, ?_, ?_⟩
  · ext r
    simp only [Set.mem_setOf_eq, Set.mem_Ico]
    constructor
    · rintro ⟨⟨hr0, _⟩, hre⟩
      exact ⟨hr0, hre⟩
    · rintro ⟨hr0, hre⟩
      exact ⟨⟨hr0, lt_of_lt_of_le hre h1⟩, hre⟩
  · intro r u hre
    refine ⟨?_, ?_⟩
    · simp only [act_with_epsilon_greedy, if_pos hre]
      exact Nat.mod_lt _ hpos
    · intro a ha
      have hfc : (Finset.range body.action_dim).filter
          (fun u2 => act_with_epsilon_greedy body state net epsilon r u2 = a)
          = (Finset.range body.action_dim).filter (fun u2 => u2 = a) := by
        apply Finset.filter_congr
        intro u2 hu2
        simp only [act_with_epsilon_greedy, if_pos hre,
          Nat.mod_eq_of_lt (Finset.mem_range.mp hu2)]
      rw [hfc, Finset.filter_eq', if_pos (Finset.mem_range.mpr ha)]
      simp
  · intro r u hre
    simp only [act_with_epsilon_greedy, if_neg hre]
  · intro he r hr u
    have : ¬ epsilon > r := by
      rw [he]
      exact not_lt.mpr hr.1
    simp only [act_with_epsilon_greedy, if_neg this]
  · have hne : net state ≠ [] := by
      intro h
      rw [h] at hout
      simp at hout
      omega
    obtain ⟨hlt, hmax⟩ := torchMaxIdx_spec (net state) hne
    exact ⟨hout ▸ hlt, fun i hi => hmax i (hout ▸ hi)⟩

theorem act_with_epsilon_greedy_correct_witness :
    (0 : ℚ) ≤ 1/2 ∧ ((1 : ℚ)/2 ≤ 1) ∧ 1 ≤ Body.action_dim ⟨2⟩ ∧
    (((fun _ => [3, 7]) (0 : ℕ) : List ℚ).length = Body.action_dim ⟨2⟩) ∧
    (∀ r u, ¬ (1 : ℚ)/2 > r →
      act_with_epsilon_greedy ⟨2⟩ (0 : ℕ) (fun _ => ([3, 7] : List ℚ)) (1/2) r u
        = torchMaxIdx [3, 7]) :=
  ⟨by norm_num, by norm_num, by norm_num, by norm_num,
    (act_with_epsilon_greedy_correct ⟨2⟩ (0 : ℕ) (fun _ => ([3, 7] : List ℚ)) (1/2)
      (by norm_num) (by norm_num) (by norm_num) (by norm_num)).2.2.1⟩

/-- The fields of the algorithm object read by `update_linear_decay`:
`cls.explore_var_start`, `cls.explore_var_end`, `cls.explore_anneal_epi`
and `cls.agent.body_num`. -/
structure DecayCls where
  explore_var_start : ℚ
  explore_var_end : ℚ
  explore_anneal_epi : ℚ
  body_num : ℕ

/-- `update_linear_decay` from `algorithm_util.py`: linear anneal of the
exploration variable from `explore_var_start` towards `explore_var_end`
over `explore_anneal_epi` episodes, floored at `explore_var_end`, and
broadcast to one entry per body. `epi` is the space clock episode. -/
def update_linear_decay (cls : DecayCls) (epi : ℕ) : List ℚ :=
  let rise := cls.explore_var_end - cls.explore_var_start
  let slope := rise / cls.explore_anneal_epi
  let explore_var := max (slope * ((epi : ℚ) - 1) + cls.explore_var_start) cls.explore_var_end
  List.replicate cls.body_num explore_var

/-- Claim C4: for `epi ≥ 1`, `update_linear_decay` returns a list of length
`body_num` with all entries equal to
`max (((end − start)/anneal) * (epi − 1) + start) end`, and when
`end ≤ start` (with a positive anneal horizon) the value is non-increasing
in `epi` and stays within `[explore_var_end, explore_var_start]`. -/
theorem update_linear_decay_correct (cls : DecayCls) (epi : ℕ)
    (hepi : 1 ≤ epi) (hann : 0 < cls.explore_anneal_epi)
    (hle : cls.explore_var_end ≤ cls.explore_var_start) :
    (update_linear_decay cls epi = List.replicate cls.body_num
      (max ((cls.explore_var_end - cls.explore_var_start) / cls.explore_anneal_epi
        * ((epi : ℚ) - 1) + cls.explore_var_start) cls.explore_var_end))
    ∧ (update_linear_decay cls epi).length = cls.body_num
    ∧ (∀ v ∈ update_linear_decay cls epi, ∀ w ∈ update_linear_decay cls epi, v = w)
    ∧ (∀ v ∈ update_linear_decay cls epi,
        cls.explore_var_end ≤ v ∧ v ≤ cls.explore_var_start)
    ∧ (∀ epi2, epi ≤ epi2 → ∀ v ∈ update_linear_decay cls epi,
        ∀ v2 ∈ update_linear_decay cls epi2, v2 ≤ v) := by
  have hslope : (cls.explore_var_end - cls.explore_var_start) / cls.explore_anneal_epi ≤ 0 :=
    div_nonpos_iff.mpr (Or.inr ⟨by linarith, le_of_lt hann⟩)
  have hval : ∀ e : ℕ, 1 ≤ e → ∀ v ∈ update_linear_decay cls e,
      v = max ((cls.explore_var_end - cls.explore_var_start) / cls.explore_anneal_epi
        * ((e : ℚ) - 1) + cls.explore_var_start) cls.explore_var_end := by
    intro e _ v hv
    exact List.eq_of_mem_replicate hv
  refine ⟨rfl, by simp [update_linear_decay], ?_, ?_, ?_⟩
  · intro v hv w hw
    rw [hval epi hepi v hv, hval epi hepi w hw]
  · intro v hv
    rw [hval epi hepi v hv]
    constructor
    · exact le_max_right _ _
    · apply max_le _ hle
      have he1 : (0 : ℚ) ≤ (epi : ℚ) - 1 := by
        have : (1 : ℚ) ≤ (epi : ℚ) := by exact_mod_cast hepi
        linarith
      nlinarith
  · intro epi2 h12 v hv v2 hv2
    rw [hval epi hepi v hv, hval epi2 (le_trans hepi h12) v2 hv2]
    apply max_le_max _ le_rfl
    have hmono : (cls.explore_var_end - cls.explore_var_start) / cls.explore_anneal_epi
        * ((epi2 : ℚ) - 1) ≤ (cls.explore_var_end - cls.explore_var_start)
          / cls.explore_anneal_epi * ((epi : ℚ) - 1) := by
      apply mul_le_mul_of_nonpos_left _ hslope
      have : (epi : ℚ) ≤ (epi2 : ℚ) := by exact_mod_cast h12
      linarith
    linarith

theorem update_linear_decay_correct_witness :
    1 ≤ 5 ∧ (0 : ℚ) < 10 ∧ (1 : ℚ)/10 ≤ 1 ∧
    (update_linear_decay ⟨1, 1/10, 10, 3⟩ 5).length = 3 :=
  ⟨by norm_num, by norm_num, by norm_num,
    (update_linear_decay_correct ⟨1, 1/10, 10, 3⟩ 5
      (by norm_num) (by norm_num) (by norm_num)).2.1⟩

/-- The loop of `multi_act_with_epsilon_greedy` from `algorithm_util.py`:
iterate over the zipped bodies and epsilons, keeping a running `start_idx`
into the concatenated net output `out`; per body either a fresh random
action (`rs i`, `us i` are that iteration's draws) or the argmax over the
slice `out[start_idx : start_idx + action_dim]`. -/
def multi_act_go (out : List ℚ) (rs : ℕ → ℚ) (us : ℕ → ℕ) :
    ℕ → ℕ → List (Body × ℚ) → List ℕ
  | _, _, [] => []
  | i, start_idx, (body, e) :: rest =>
    let action := if e > rs i then us i % body.action_dim
      else torchMaxIdx ((out.drop start_idx).take body.action_dim)
    action :: multi_act_go out rs us (i + 1) (start_idx + body.action_dim) rest

/-- `multi_act_with_epsilon_greedy` from `algorithm_util.py`: one action per
body from a single net pass, epsilon-greedy per body over its own slice of
the concatenated output. -/
def multi_act_with_epsilon_greedy (nanflat_body_a : List Body)
    (nanflat_epsilon_a : List ℚ) (out : List ℚ) (rs : ℕ → ℚ) (us : ℕ → ℕ) : List ℕ :=
  multi_act_go out rs us 0 0 (nanflat_body_a.zip nanflat_epsilon_a)

/-- Start of body `k`'s slice of the concatenated net output: the sum of the
action dimensions of all preceding bodies. -/
def sliceStart (nanflat_body_a : List Body) (k : ℕ) : ℕ :=
  ((nanflat_body_a.take k).map Body.action_dim).sum

theorem multi_act_go_length (out : List ℚ) (rs : ℕ → ℚ) (us : ℕ → ℕ)
    (pairs : List (Body × ℚ)) : ∀ (i0 s0 : ℕ),
    (multi_act_go out rs us i0 s0 pairs).length = pairs.length := by
  induction pairs with
  | nil => intro i0 s0; rfl
  | cons p rest ih =>
    intro i0 s0
    obtain ⟨b, e⟩ := p
    simp only [multi_act_go, List.length_cons, ih]

theorem multi_act_go_getD (out : List ℚ) (rs : ℕ → ℚ) (us : ℕ → ℕ)
    (pairs : List (Body × ℚ)) : ∀ (i0 s0 k : ℕ), k < pairs.length →
    (multi_act_go out rs us i0 s0 pairs).getD k 0 =
      if (pairs.getD k ⟨⟨0⟩, 0⟩).2 > rs (i0 + k)
      then us (i0 + k) % (pairs.getD k ⟨⟨0⟩, 0⟩).1.action_dim
      else torchMaxIdx
        ((out.drop (s0 + ((pairs.take k).map (fun q => q.1.action_dim)).sum)).take
          (pairs.getD k ⟨⟨0⟩, 0⟩).1.action_dim) := by
  induction pairs with
  | nil => intro i0 s0 k hk; simp at hk
  | cons p rest ih =>
    intro i0 s0 k hk
    obtain ⟨b, e⟩ := p
    cases k with
    | zero => simp [multi_act_go]
    | succ k =>
      have hk2 : k < rest.length := by simpa using hk
      have harith : i0 + 1 + k = i0 + (k + 1) := by omega
      simp only [multi_act_go, List.getD_cons_succ, List.getD_cons_succ,
        List.take_succ_cons, List.map_cons, List.sum_cons]
      rw [ih (i0 + 1) (s0 + b.action_dim) k hk2, harith]
      have hoff : s0 + b.action_dim + ((rest.take k).map (fun q => q.1.action_dim)).sum
          = s0 + (b.action_dim + ((rest.take k).map (fun q => q.1.action_dim)).sum) := by
        omega
      rw [hoff]

theorem sliceStart_add_le (nanflat_body_a : List Body) (k : ℕ)
    (hk : k < nanflat_body_a.length) :
    sliceStart nanflat_body_a k + (nanflat_body_a.getD k ⟨0⟩).action_dim
      ≤ (nanflat_body_a.map Body.action_dim).sum := by
  have hsplit := List.take_append_drop k nanflat_body_a
  have hdrop : nanflat_body_a.drop k
      = nanflat_body_a.getD k ⟨0⟩ :: nanflat_body_a.drop (k + 1) := by
    rw [List.getD_eq_getElem _ _ hk]
    exact List.drop_eq_getElem_cons hk
  calc sliceStart nanflat_body_a k + (nanflat_body_a.getD k ⟨0⟩).action_dim
      ≤ ((nanflat_body_a.take k).map Body.action_dim).sum
        + ((nanflat_body_a.drop k).map Body.action_dim).sum := by
        rw [hdrop]
        simp only [List.map_cons, List.sum_cons, sliceStart]
        omega
    _ = (nanflat_body_a.map Body.action_dim).sum := by
        rw [← List.sum_append, ← List.map_append, hsplit]

/-- Claim C5: `multi_act_with_epsilon_greedy` returns exactly one action per
body; for every body `k` whose epsilon test fails the action is the argmax
taken only over that body's consecutive slice of the concatenated net output
(the slice starting at the sum of the action dimensions of all preceding
bodies, of length that body's `action_dim`), as a local index attaining the
slice's maximum; and every returned action is in `[0, action_dim)`. -/
theorem multi_act_with_epsilon_greedy_correct (nanflat_body_a : List Body)
    (nanflat_epsilon_a : List ℚ) (out : List ℚ) (rs : ℕ → ℚ) (us : ℕ → ℕ)
    (hlen : nanflat_epsilon_a.length = nanflat_body_a.length)
    (hdims : ∀ b ∈ nanflat_body_a, 1 ≤ b.action_dim)
    (hout : (nanflat_body_a.map Body.action_dim).sum ≤ out.length) :
    (multi_act_with_epsilon_greedy nanflat_body_a nanflat_epsilon_a out rs us).length
      = nanflat_body_a.length
    ∧ ∀ k, k < nanflat_body_a.length →
      ((¬ nanflat_epsilon_a.getD k 0 > rs k →
        (multi_act_with_epsilon_greedy nanflat_body_a nanflat_epsilon_a out rs us).getD k 0
          = torchMaxIdx ((out.drop (sliceStart nanflat_body_a k)).take
              (nanflat_body_a.getD k ⟨0⟩).action_dim)
        ∧ ∀ j < (nanflat_body_a.getD k ⟨0⟩).action_dim,
            ((out.drop (sliceStart nanflat_body_a k)).take
              (nanflat_body_a.getD k ⟨0⟩).action_dim).getD j 0
            ≤ ((out.drop (sliceStart nanflat_body_a k)).take
                (nanflat_body_a.getD k ⟨0⟩).action_dim).getD
              ((multi_act_with_epsilon_greedy nanflat_body_a nanflat_epsilon_a out rs us).getD k 0) 0)
      ∧ (multi_act_with_epsilon_greedy nanflat_body_a nanflat_epsilon_a out rs us).getD k 0
          < (nanflat_body_a.getD k ⟨0⟩).action_dim) := by
  have hble : nanflat_body_a.length ≤ nanflat_epsilon_a.length := le_of_eq hlen.symm
  have hziplen : (nanflat_body_a.zip nanflat_epsilon_a).length = nanflat_body_a.length := by
    simp [List.length_zip, hlen]
  have hdimk : ∀ k, k < nanflat_body_a.length → 1 ≤ (nanflat_body_a.getD k ⟨0⟩).action_dim := by
    intro k hk
    apply hdims
    rw [List.getD_eq_getElem _ _ hk]
    exact List.getElem_mem hk
  have hgetzip : ∀ k, k < nanflat_body_a.length →
      (nanflat_body_a.zip nanflat_epsilon_a).getD k ⟨⟨0⟩, 0⟩
        = (nanflat_body_a.getD k ⟨0⟩, nanflat_epsilon_a.getD k 0) := by
    intro k hk
    have hkz : k < (nanflat_body_a.zip nanflat_epsilon_a).length := by rwa [hziplen]
    have hke : k < nanflat_epsilon_a.length := by omega
    rw [List.getD_eq_getElem _ _ hkz, List.getD_eq_getElem _ _ hk,
      List.getD_eq_getElem _ _ hke]
    exact List.getElem_zip
  have hoffeq : ∀ k, (((nanflat_body_a.zip nanflat_epsilon_a).take k).map
      (fun q => q.1.action_dim)).sum = sliceStart nanflat_body_a k := by
    intro k
    have h1 : ((nanflat_body_a.zip nanflat_epsilon_a).map (fun q => q.1.action_dim))
        = nanflat_body_a.map Body.action_dim := by
      have h2 : ((nanflat_body_a.zip nanflat_epsilon_a).map Prod.fst) = nanflat_body_a :=
        List.map_fst_zip _ _ hble
      calc ((nanflat_body_a.zip nanflat_epsilon_a).map (fun q => q.1.action_dim))
          = ((nanflat_body_a.zip nanflat_epsilon_a).map Prod.fst).map Body.action_dim := by
            rw [List.map_map]; rfl
        _ = nanflat_body_a.map Body.action_dim := by rw [h2]
    calc (((nanflat_body_a.zip nanflat_epsilon_a).take k).map (fun q => q.1.action_dim)).sum
        = (((nanflat_body_a.zip nanflat_epsilon_a).map (fun q => q.1.action_dim)).take k).sum := by
          rw [List.map_take]
      _ = ((nanflat_body_a.map Body.action_dim).take k).sum := by rw [h1]
      _ = sliceStart nanflat_body_a k := by rw [sliceStart, List.map_take]
  have hslicelen : ∀ k, k < nanflat_body_a.length →
      ((out.drop (sliceStart nanflat_body_a k)).take
        (nanflat_body_a.getD k ⟨0⟩).action_dim).length
        = (nanflat_body_a.getD k ⟨0⟩).action_dim := by
    intro k hk
    have hb := sliceStart_add_le nanflat_body_a k hk
    simp only [List.length_take, List.length_drop]
    omega
  refine ⟨?_, ?_⟩
  · rw [multi_act_with_epsilon_greedy, multi_act_go_length, hziplen]
  · intro k hk
    have hkz : k < (nanflat_body_a.zip nanflat_epsilon_a).length := by rwa [hziplen]
    have hgo := multi_act_go_getD out rs us (nanflat_body_a.zip nanflat_epsilon_a) 0 0 k hkz
    rw [hgetzip k hk, hoffeq k] at hgo
    simp only [Nat.zero_add] at hgo
    have hsl := hslicelen k hk
    have hne : (out.drop (sliceStart nanflat_body_a k)).take
        (nanflat_body_a.getD k ⟨0⟩).action_dim ≠ [] :=
      List.ne_nil_of_length_pos (by rw [hsl]; exact hdimk k hk)
    obtain ⟨hmlt, hmmax⟩ := torchMaxIdx_spec _ hne
    constructor
    · intro hgr
      rw [multi_act_with_epsilon_greedy, hgo, if_neg hgr]
      exact ⟨rfl, fun j hj => hmmax j (by rwa [hsl])⟩
    · rw [multi_act_with_epsilon_greedy, hgo]
      by_cases hgr : nanflat_epsilon_a.getD k 0 > rs k
      · rw [if_pos hgr]
        exact Nat.mod_lt _ (hdimk k hk)
      · rw [if_neg hgr]
        rwa [hsl] at hmlt

theorem multi_act_with_epsilon_greedy_correct_witness :
    ([(1 : ℚ), 0] : List ℚ).length = ([⟨2⟩, ⟨1⟩] : List Body).length
    ∧ (∀ b ∈ ([⟨2⟩, ⟨1⟩] : List Body), 1 ≤ b.action_dim)
    ∧ (([⟨2⟩, ⟨1⟩] : List Body).map Body.action_dim).sum ≤ ([4, 6, 5] : List ℚ).length
    ∧ (multi_act_with_epsilon_greedy [⟨2⟩, ⟨1⟩] [(1 : ℚ), 0] [4, 6, 5]
        (fun _ => 1/2) (fun _ => 0)).length = ([⟨2⟩, ⟨1⟩] : List Body).length :=
  ⟨rfl, by decide, by decide,
    (multi_act_with_epsilon_greedy_correct [⟨2⟩, ⟨1⟩] [(1 : ℚ), 0] [4, 6, 5]
      (fun _ => 1/2) (fun _ => 0) rfl (by decide) (by decide)).1⟩

/-- A batch as returned by the on-policy memory's `sample`: parallel arrays
indexed by transition. States are feature vectors; actions are discrete
(SARSA is discrete-only); `dones` holds the 0/1 termination flags. -/
structure MemBatch where
  states : List (List ℚ)
  actions : List ℕ
  rewards : List ℚ
  next_states : List (List ℚ)
  dones : List ℚ

/-- A SARSA batch after `SARSA.sample` has added `next_actions` (the
conversion `util.to_torch_batch` is an identity in this model). -/
structure SarsaBatch where
  states : List (List ℚ)
  actions : List ℕ
  rewards : List ℚ
  next_states : List (List ℚ)
  dones : List ℚ
  next_actions : List ℕ

/-- `SARSA.sample` from `sarsa.py`:
`batch['next_actions'] = np.zeros_like(batch['actions'])` followed by
`batch['next_actions'][:-1] = batch['actions'][1:]` — position `t` holds
`actions[t+1]` when that exists and otherwise the zero left by
`zeros_like`; every other field is passed through. -/
def SARSA_sample (batch : MemBatch) : SarsaBatch :=
  { states := batch.states
    actions := batch.actions
    rewards := batch.rewards
    next_states := batch.next_states
    dones := batch.dones
    next_actions := (List.range batch.actions.length).map
      (fun t => if t + 1 < batch.actions.length then batch.actions.getD (t + 1) 0 else 0) }

theorem getD_range_map {α : Type} (n : ℕ) (f : ℕ → α) (t : ℕ) (d : α) (h : t < n) :
    ((List.range n).map f).getD t d = f t := by
  rw [List.getD_eq_getElem _ _ (by simpa using h)]
  simp

/-- Claim C6: for every non-empty memory batch, `SARSA.sample` produces
`next_actions` with `next_actions[t] = actions[t+1]` for every index before
the last and zero at the last index, of the same length as `actions`, and
passes all other fields of the memory's batch through unchanged. -/
theorem SARSA_sample_correct (batch : MemBatch) (hne : batch.actions ≠ []) :
    ((SARSA_sample batch).next_actions.length = batch.actions.length)
    ∧ (∀ t, t + 1 < batch.actions.length →
        (SARSA_sample batch).next_actions.getD t 0 = batch.actions.getD (t + 1) 0)
    ∧ ((SARSA_sample batch).next_actions.getD (batch.actions.length - 1) 0 = 0)
    ∧ (SARSA_sample batch).states = batch.states
    ∧ (SARSA_sample batch).actions = batch.actions
    ∧ (SARSA_sample batch).rewards = batch.rewards
    ∧ (SARSA_sample batch).next_states = batch.next_states
    ∧ (SARSA_sample batch).dones = batch.dones := by
  have hlen : 0 < batch.actions.length := List.length_pos.mpr hne
  refine ⟨by simp [SARSA_sample], ?_, ?_, rfl, rfl, rfl, rfl, rfl⟩
  · intro t ht
    rw [SARSA_sample, getD_range_map _ _ _ _ (by omega), if_pos ht]
  · rw [SARSA_sample, getD_range_map _ _ _ _ (by omega),
      if_neg (by omega)]

theorem SARSA_sample_correct_witness :
    (MemBatch.actions ⟨[[1], [2]], [0, 1], [5, 6], [[2], [3]], [0, 1]⟩ ≠ [])
    ∧ (∀ t, t + 1 < (MemBatch.actions ⟨[[1], [2]], [0, 1], [5, 6], [[2], [3]], [0, 1]⟩).length →
        (SARSA_sample ⟨[[1], [2]], [0, 1], [5, 6], [[2], [3]], [0, 1]⟩).next_actions.getD t 0
          = (MemBatch.actions ⟨[[1], [2]], [0, 1], [5, 6], [[2], [3]], [0, 1]⟩).getD (t + 1) 0) :=
  ⟨by decide,
    (SARSA_sample_correct ⟨[[1], [2]], [0, 1], [5, 6], [[2], [3]], [0, 1]⟩ (by decide)).2.1⟩

/-- Three-list pointwise combination, used for elementwise tensor
arithmetic over parallel batch arrays. -/
def zipWith3 {α β γ δ : Type} (f : α → β → γ → δ) : List α → List β → List γ → List δ
  | a :: as, b :: bs, c :: cs => f a b c :: zipWith3 f as bs cs
  | _, _, _ => []

theorem zipWith3_getD {α β γ δ : Type} (f : α → β → γ → δ)
    (d1 : α) (d2 : β) (d3 : γ) (d4 : δ) :
    ∀ (as : List α) (bs : List β) (cs : List γ) (t : ℕ),
    t < as.length → t < bs.length → t < cs.length →
    (zipWith3 f as bs cs).getD t d4 = f (as.getD t d1) (bs.getD t d2) (cs.getD t d3) := by
  intro as
  induction as with
  | nil => intro bs cs t h1 h2 h3; simp at h1
  | cons a as ih =>
    intro bs cs t h1 h2 h3
    cases bs with
    | nil => simp at h2
    | cons b bs =>
      cases cs with
      | nil => simp at h3
      | cons c cs =>
        cases t with
        | zero => simp [zipWith3]
        | succ t =>
          simp only [zipWith3, List.getD_cons_succ]
          exact ih bs cs t (by simpa using h1) (by simpa using h2) (by simpa using h3)

/-- One row of `q_preds.gather(-1, actions.long().unsqueeze(-1)).squeeze(-1)`:
select the Q-value at the action's index. -/
def gather (qs : List ℚ) (a : ℕ) : ℚ := qs.getD a 0

/-- The target computation inside `SARSA.calc_q_loss`:
`act_next_q_preds = net(next_states).gather(-1, next_actions)` computed
under `torch.no_grad()`, then
`act_q_targets = rewards + gamma * (1 - dones) * act_next_q_preds`. -/
def calc_act_q_targets (gamma : ℚ) (net : List ℚ → List ℚ) (batch : SarsaBatch) : List ℚ :=
  let next_q_preds := batch.next_states.map net
  let act_next_q_preds := List.zipWith gather next_q_preds batch.next_actions
  zipWith3 (fun r d nq => r + gamma * (1 - d) * nq) batch.rewards batch.dones act_next_q_preds

/-- The MSE loss standing for `self.net.loss_fn`. -/
def mse_loss (x y : List ℚ) : ℚ := (List.zipWith (fun a b => (a - b) ^ 2) x y).sum / x.length

/-- `SARSA.calc_q_loss`: the regression loss between
`act_q_preds = net(states).gather(-1, actions)` and `act_q_targets`. -/
def calc_q_loss (gamma : ℚ) (net : List ℚ → List ℚ) (batch : SarsaBatch) : ℚ :=
  let q_preds := batch.states.map net
  let act_q_preds := List.zipWith gather q_preds batch.actions
  mse_loss act_q_preds (calc_act_q_targets gamma net batch)

theorem zipWith_gather_getD (net : List ℚ → List ℚ) (ns : List (List ℚ)) (nas : List ℕ)
    (t : ℕ) (h1 : t < ns.length) (h2 : t < nas.length) :
    (List.zipWith gather (ns.map net) nas).getD t 0
      = gather (net (ns.getD t [])) (nas.getD t 0) := by
  have hlen : t < (List.zipWith gather (ns.map net) nas).length := by
    simp only [List.length_zipWith, List.length_map]
    omega
  rw [List.getD_eq_getElem _ _ hlen, List.getD_eq_getElem _ _ h1,
    List.getD_eq_getElem _ _ h2]
  simp [List.getElem_zipWith]

/-- Claim C1: in `SARSA.calc_q_loss` the training target at each transition
`t` equals `rewards[t] + gamma * (1 - dones[t]) * Q(next_state[t],
next_action[t])` computed by the same net; in particular for every terminal
transition (`dones[t] = 1`) the target equals the reward alone, identical
under every choice of net. -/
theorem calc_act_q_targets_correct (gamma : ℚ) (net : List ℚ → List ℚ)
    (batch : SarsaBatch) (t : ℕ)
    (hr : t < batch.rewards.length) (hd : t < batch.dones.length)
    (hs : t < batch.next_states.length) (ha : t < batch.next_actions.length) :
    ((calc_act_q_targets gamma net batch).getD t 0
      = batch.rewards.getD t 0 + gamma * (1 - batch.dones.getD t 0)
        * gather (net (batch.next_states.getD t [])) (batch.next_actions.getD t 0))
    ∧ (batch.dones.getD t 0 = 1 →
        (calc_act_q_targets gamma net batch).getD t 0 = batch.rewards.getD t 0
        ∧ ∀ net2 : List ℚ → List ℚ,
          (calc_act_q_targets gamma net2 batch).getD t 0
            = (calc_act_q_targets gamma net batch).getD t 0) := by
  have hmain : ∀ net3 : List ℚ → List ℚ,
      (calc_act_q_targets gamma net3 batch).getD t 0
        = batch.rewards.getD t 0 + gamma * (1 - batch.dones.getD t 0)
          * gather (net3 (batch.next_states.getD t [])) (batch.next_actions.getD t 0) := by
    intro net3
    rw [calc_act_q_targets]
    rw [zipWith3_getD _ 0 0 0 0 _ _ _ t hr hd
      (by simp only [List.length_zipWith, List.length_map]; omega)]
    rw [zipWith_gather_getD net3 _ _ t hs ha]
  refine ⟨hmain net, ?_⟩
  intro hdone
  have hterm : ∀ net3 : List ℚ → List ℚ,
      (calc_act_q_targets gamma net3 batch).getD t 0 = batch.rewards.getD t 0 := by
    intro net3
    rw [hmain net3, hdone]
    ring
  exact ⟨hterm net, fun net2 => by rw [hterm net2, hterm net]⟩

theorem calc_act_q_targets_correct_witness :
    (0 < (SarsaBatch.rewards ⟨[[1]], [0], [5], [[2]], [1], [0]⟩).length)
    ∧ ((SarsaBatch.dones ⟨[[1]], [0], [5], [[2]], [1], [0]⟩).getD 0 0 = 1 →
        (calc_act_q_targets (9/10) (fun q => q) ⟨[[1]], [0], [5], [[2]], [1], [0]⟩).getD 0 0
          = (SarsaBatch.rewards ⟨[[1]], [0], [5], [[2]], [1], [0]⟩).getD 0 0
        ∧ ∀ net2 : List ℚ → List ℚ,
          (calc_act_q_targets (9/10) net2 ⟨[[1]], [0], [5], [[2]], [1], [0]⟩).getD 0 0
            = (calc_act_q_targets (9/10) (fun q => q) ⟨[[1]], [0], [5], [[2]], [1], [0]⟩).getD 0 0) :=
  ⟨by decide,
    (calc_act_q_targets_correct (9/10) (fun q => q) ⟨[[1]], [0], [5], [[2]], [1], [0]⟩ 0
      (by decide) (by decide) (by decide) (by decide)).2⟩

/-- The mutable algorithm state touched by `SARSA.train`: the `to_train`
flag, the memory, the net (with optimizer and lr scheduler folded in), and
the internal clock's recorded batch size. -/
structure SARSAState (μ ν : Type) where
  to_train : ℕ
  memory : μ
  net : ν
  clock_batch_size : ℕ

/-- `SARSA.train` from `sarsa.py`. `in_eval_lab_modes` is the value of
`util.in_eval_lab_modes()`; `memory_sample` is `self.memory.sample`,
returning the raw batch together with the memory's post-sample state;
`q_fun` reads the net's Q-function (so the loss is the real
`calc_q_loss`); `train_step` is `self.net.train_step` applied to the loss;
`batch_size` is the `len(batch)` recorded by `clock.set_batch_size`. The
`np.nan` returned on the no-op paths is modelled as `none`. -/
def SARSA_train {μ ν : Type} (in_eval_lab_modes : Bool) (gamma : ℚ)
    (memory_sample : μ → MemBatch × μ)
    (q_fun : ν → List ℚ → List ℚ)
    (train_step : ν → ℚ → ν)
    (batch_size : SarsaBatch → ℕ)
    (s : SARSAState μ ν) : SARSAState μ ν × Option ℚ :=
  if in_eval_lab_modes then (s, none)
  else if s.to_train = 1 then
    let mb := memory_sample s.memory
    let batch := SARSA_sample mb.1
    let loss := calc_q_loss gamma (q_fun s.net) batch
    ({ to_train := 0, memory := mb.2, net := train_step s.net loss,
       clock_batch_size := batch_size batch }, some loss)
  else (s, none)

/-- Claim C8: `SARSA.train` returns NaN (`none`) and leaves the whole
algorithm state unchanged — no memory sample, no net update, `to_train`
untouched — whenever the lab is in an eval mode or `to_train ≠ 1`; when not
in eval mode and `to_train = 1` it samples one fresh batch, applies exactly
one `train_step` with the loss of that batch, resets `to_train` to 0, and
returns that loss. -/
theorem SARSA_train_correct {μ ν : Type} (in_eval_lab_modes : Bool) (gamma : ℚ)
    (memory_sample : μ → MemBatch × μ) (q_fun : ν → List ℚ → List ℚ)
    (train_step : ν → ℚ → ν) (batch_size : SarsaBatch → ℕ) (s : SARSAState μ ν) :
    (in_eval_lab_modes = true →
      SARSA_train in_eval_lab_modes gamma memory_sample q_fun train_step batch_size s
        = (s, none))
    ∧ (s.to_train ≠ 1 →
      SARSA_train in_eval_lab_modes gamma memory_sample q_fun train_step batch_size s
        = (s, none))
    ∧ (in_eval_lab_modes = false → s.to_train = 1 →
      SARSA_train in_eval_lab_modes gamma memory_sample q_fun train_step batch_size s
        = ({ to_train := 0, memory := (memory_sample s.memory).2,
             net := train_step s.net (calc_q_loss gamma (q_fun s.net)
               (SARSA_sample (memory_sample s.memory).1)),
             clock_batch_size := batch_size (SARSA_sample (memory_sample s.memory).1) },
           some (calc_q_loss gamma (q_fun s.net)
             (SARSA_sample (memory_sample s.memory).1)))) := by
  refine ⟨?_, ?_, ?_⟩
  · intro h
    simp [SARSA_train, h]
  · intro h
    by_cases he : in_eval_lab_modes
    · simp [SARSA_train, he]
    · simp [SARSA_train, he, h]
  · intro he ht
    simp [SARSA_train, he, ht]

theorem SARSA_train_correct_witness :
    SARSA_train (μ := ℕ) (ν := ℕ) true 1 (fun m => (⟨[], [], [], [], []⟩, m))
      (fun _ => fun q => q) (fun n _ => n) (fun _ => 0) ⟨1, 0, 0, 0⟩
      = (⟨1, 0, 0, 0⟩, none) :=
  (SARSA_train_correct true 1 (fun m => (⟨[], [], [], [], []⟩, m))
    (fun _ => fun q => q) (fun n _ => n) (fun _ => 0) ⟨1, 0, 0, 0⟩).1 rfl

/-- `act_with_epsilon_greedy_atari` from `algorithm_util.py`: read `t` from
the space clock; at `t % 4 == 1` select a fresh epsilon-greedy action and
store it in `body.agent.last_action`, otherwise return `last_action`. The
result is the pair (returned action, `last_action` after the call). -/
def act_with_epsilon_greedy_atari (t : ℕ) (body : Body) (state : σ)
    (net : σ → List ℚ) (epsilon : ℚ) (r : ℚ) (u : ℕ) (last_action : ℕ) : ℕ × ℕ :=
  if t % 4 = 1 then
    let action := act_with_epsilon_greedy body state net epsilon r u
    (action, action)
  else (last_action, last_action)

/-- Run `act_with_epsilon_greedy_atari` over a list of consecutive clock
values, threading `last_action`; returns the emitted actions and the final
`last_action`. `states`, `rs`, `us` give the state and random draws seen at
clock value `t`. -/
def run_atari (body : Body) (net : σ → List ℚ) (epsilon : ℚ) (states : ℕ → σ)
    (rs : ℕ → ℚ) (us : ℕ → ℕ) : List ℕ → ℕ → List ℕ × ℕ
  | [], last_action => ([], last_action)
  | t :: ts, last_action =>
    let step := act_with_epsilon_greedy_atari t body (states t) net epsilon
      (rs t) (us t) last_action
    let rest := run_atari body net epsilon states rs us ts step.2
    (step.1 :: rest.1, rest.2)

/-- Claim C9: `act_with_epsilon_greedy_atari` computes a new action exactly
at clock values with `t % 4 == 1`, storing it in `last_action`; at every
other timestep it returns `last_action` unchanged, so over any run of
timesteps containing no selection timestep every emitted action equals the
held `last_action` and the held action never changes. -/
theorem act_with_epsilon_greedy_atari_correct (body : Body) (net : σ → List ℚ)
    (epsilon : ℚ) (states : ℕ → σ) (rs : ℕ → ℚ) (us : ℕ → ℕ) :
    (∀ t last_action, t % 4 ≠ 1 →
      act_with_epsilon_greedy_atari t body (states t) net epsilon (rs t) (us t) last_action
        = (last_action, last_action))
    ∧ (∀ t last_action, t % 4 = 1 →
      act_with_epsilon_greedy_atari t body (states t) net epsilon (rs t) (us t) last_action
        = (act_with_epsilon_greedy body (states t) net epsilon (rs t) (us t),
           act_with_epsilon_greedy body (states t) net epsilon (rs t) (us t)))
    ∧ (∀ (ts : List ℕ) (last_action : ℕ), (∀ t ∈ ts, t % 4 ≠ 1) →
      run_atari body net epsilon states rs us ts last_action
        = (ts.map (fun _ => last_action), last_action)) := by
  refine ⟨?_, ?_, ?_⟩
  · intro t last_action h
    simp [act_with_epsilon_greedy_atari, h]
  · intro t last_action h
    simp [act_with_epsilon_greedy_atari, h]
  · intro ts
    induction ts with
    | nil => intro last_action _; rfl
    | cons t ts ih =>
      intro last_action h
      have ht : t % 4 ≠ 1 := h t (List.mem_cons_self t ts)
      have hrest := ih last_action (fun t2 ht2 => h t2 (List.mem_cons_of_mem t ht2))
      simp only [run_atari, act_with_epsilon_greedy_atari, if_neg ht, hrest, List.map_cons]

theorem act_with_epsilon_greedy_atari_correct_witness :
    (∀ t ∈ [2, 3, 4], t % 4 ≠ 1)
    ∧ run_atari ⟨2⟩ (fun _ : ℕ => ([3, 7] : List ℚ)) (1/2) (fun _ => 0)
        (fun _ => 1) (fun _ => 0) [2, 3, 4] 7 = ([7, 7, 7], 7) :=
  ⟨by decide,
    (act_with_epsilon_greedy_atari_correct ⟨2⟩ (fun _ : ℕ => ([3, 7] : List ℚ)) (1/2)
      (fun _ => 0) (fun _ => 1) (fun _ => 0)).2.2 [2, 3, 4] 7 (by decide)⟩

/-- `Random.act_discrete` from `random.py`:
`np.random.randint(env.get_action_dim())`, modelled as `u % action_dim` for
a uniform natural draw `u`; the `state` argument does not occur in the
body. -/
def Random_act_discrete (env_action_dim : ℕ) (state : σ) (u : ℕ) : ℕ :=
  u % env_action_dim

/-- `Random.act_continuous` from `random.py`:
`np.random.randn(env.get_action_dim())`; `z` is the vector of
standard-normal draws; the `state` argument does not occur in the body. -/
def Random_act_continuous (state : τ) (z : List ℝ) : List ℝ := z

/-- Claim C10: `Random.act_discrete` ignores its state argument — for any
two states and the same random draw the output is identical, hence the
output distribution is the same uniform distribution over
`[0, env.get_action_dim())` (each action has exactly one preimage among
`action_dim` equiprobable draws); likewise `Random.act_continuous` returns
the standard-normal draw vector independently of the state. -/
theorem Random_act_correct (env_action_dim : ℕ) (hdim : 1 ≤ env_action_dim) :
    (∀ (s1 s2 : σ) (u : ℕ),
      Random_act_discrete env_action_dim s1 u = Random_act_discrete env_action_dim s2 u)
    ∧ (∀ (s : σ) (u : ℕ), Random_act_discrete env_action_dim s u < env_action_dim)
    ∧ (∀ a, a < env_action_dim → ∀ s : σ,
      ((Finset.range env_action_dim).filter
        (fun u => Random_act_discrete env_action_dim s u = a)).card = 1)
    ∧ (∀ (s1 s2 : τ) (z : List ℝ),
      Random_act_continuous s1 z = Random_act_continuous s2 z) := by
  refine ⟨fun s1 s2 u => rfl, ?_, ?_, fun s1 s2 z => rfl⟩
  · intro s u
    exact Nat.mod_lt _ hdim
  · intro a ha s
    have hfc : (Finset.range env_action_dim).filter
        (fun u => Random_act_discrete env_action_dim s u = a)
        = (Finset.range env_action_dim).filter (fun u => u = a) := by
      apply Finset.filter_congr
      intro u hu
      simp only [Random_act_discrete, Nat.mod_eq_of_lt (Finset.mem_range.mp hu)]
    rw [hfc, Finset.filter_eq', if_pos (Finset.mem_range.mpr ha)]
    simp

theorem Random_act_correct_witness :
    Random_act_discrete 3 (0 : ℕ) 5 < 3 :=
  (Random_act_correct (σ := ℕ) (τ := ℕ) 3 (by norm_num)).2.1 0 5

/-- `F.softmax(x, dim=0)`: exponentiate each entry and normalise by the sum
of the exponentials. -/
noncomputable def softmax (l : List ℝ) : List ℝ :=
  l.map (fun x => Real.exp x / (l.map Real.exp).sum)

/-- `np.random.choice(range(n), p=probs)` resolved by inverse-CDF sampling:
the uniform draw `u ∈ [0, 1)` selects the first index whose cumulative
probability exceeds it. -/
noncomputable def npChoice : List ℝ → ℝ → ℕ
  | [], _ => 0
  | p :: ps, u => if u < p then 0 else npChoice ps (u - p) + 1

theorem npChoice_nil (u : ℝ) : npChoice [] u = 0 := rfl

theorem npChoice_cons (p : ℝ) (ps : List ℝ) (u : ℝ) :
    npChoice (p :: ps) u = if u < p then 0 else npChoice ps (u - p) + 1 := rfl

/-- `act_with_boltzmann` from `algorithm_util.py`: divide the net's Q-value
output by the temperature `tau`, softmax, and sample an action from the
resulting categorical distribution over `range(body.action_dim)`. -/
noncomputable def act_with_boltzmann (body : Body) (state : σ) (net : σ → List ℝ)
    (tau : ℝ) (u : ℝ) : ℕ :=
  npChoice (softmax ((net state).map (fun q => q / tau))) u

theorem sum_map_div (l : List ℝ) (f : ℝ → ℝ) (c : ℝ) :
    (l.map (fun x => f x / c)).sum = (l.map f).sum / c := by
  induction l with
  | nil => simp
  | cons a as ih => simp [ih, add_div]

theorem softmax_sum_one (l : List ℝ) (hne : l ≠ []) : (softmax l).sum = 1 := by
  have hpos : 0 < (l.map Real.exp).sum := by
    apply List.sum_pos
    · intro x hx
      obtain ⟨y, _, hy⟩ := List.mem_map.mp hx
      rw [← hy]
      exact Real.exp_pos y
    · simpa using hne
  rw [softmax, sum_map_div, div_self (ne_of_gt hpos)]

theorem softmax_pos (l : List ℝ) (hne : l ≠ []) : ∀ p ∈ softmax l, 0 < p := by
  have hpos : 0 < (l.map Real.exp).sum := by
    apply List.sum_pos
    · intro x hx
      obtain ⟨y, _, hy⟩ := List.mem_map.mp hx
      rw [← hy]
      exact Real.exp_pos y
    · simpa using hne
  intro p hp
  obtain ⟨y, _, hy⟩ := List.mem_map.mp hp
  rw [← hy]
  exact div_pos (Real.exp_pos y) hpos

theorem npChoice_lt_length : ∀ (p : List ℝ) (u : ℝ), 0 ≤ u → u < p.sum →
    npChoice p u < p.length := by
  intro p
  induction p with
  | nil =>
    intro u h0 hs
    simp at hs
    linarith
  | cons x ps ih =>
    intro u h0 hs
    by_cases hu : u < x
    · simp [npChoice_cons, hu]
    · have h1 : 0 ≤ u - x := by linarith [not_lt.mp hu]
      have h2 : u - x < ps.sum := by
        simp only [List.sum_cons] at hs
        linarith
      rw [npChoice_cons, if_neg hu, List.length_cons]
      exact Nat.succ_lt_succ (ih (u - x) h1 h2)

theorem npChoice_interval : ∀ (p : List ℝ) (u : ℝ) (a : ℕ),
    (∀ x ∈ p, 0 ≤ x) → 0 ≤ u → a < p.length →
    (npChoice p u = a ↔ (p.take a).sum ≤ u ∧ u < (p.take (a + 1)).sum) := by
  intro p
  induction p with
  | nil =>
    intro u a _ _ ha
    simp at ha
  | cons x ps ih =>
    intro u a hnn h0 ha
    cases a with
    | zero =>
      by_cases hu : u < x
      · simp [npChoice_cons, hu, h0]
      · rw [npChoice_cons, if_neg hu]
        simp only [List.take_zero, List.sum_nil, List.take_succ_cons,
          List.take_zero, List.sum_cons, List.sum_nil]
        constructor
        · intro h
          exact absurd h (by omega)
        · intro h
          exact absurd (by linarith [h.2] : u < x) hu
    | succ a =>
      have hnnps : ∀ x2 ∈ ps, 0 ≤ x2 := fun x2 hx2 => hnn x2 (List.mem_cons_of_mem x hx2)
      have hsumnn : 0 ≤ (ps.take a).sum := by
        apply List.sum_nonneg
        intro x2 hx2
        exact hnnps x2 (List.mem_of_mem_take hx2)
      by_cases hu : u < x
      · rw [npChoice_cons, if_pos hu]
        simp only [List.take_succ_cons, List.sum_cons]
        constructor
        · intro h
          exact absurd h (by omega)
        · intro h
          have := h.1
          linarith
      · have h1 : 0 ≤ u - x := by linarith [not_lt.mp hu]
        have ha2 : a < ps.length := by simpa using ha
        rw [npChoice_cons, if_neg hu]
        simp only [List.take_succ_cons, List.sum_cons]
        have hcancel : ∀ n m : ℕ, (n + 1 = m + 1) ↔ n = m := fun n m => by omega
        rw [hcancel]
        rw [ih (u - x) a hnnps h1 ha2]
        constructor
        · intro ⟨hl, hr⟩
          exact ⟨by linarith, by linarith⟩
        · intro ⟨hl, hr⟩
          exact ⟨by linarith, by linarith⟩

/-- Claim C3: for every body and temperature `tau > 0`,
`act_with_boltzmann` samples from the categorical distribution
`softmax(Q(state)/tau)` over `[0, body.action_dim)`: the probabilities are
positive and sum to one, the returned action is always in
`[0, body.action_dim)`, and the uniform draws `u` mapped to action `a` are
exactly those in the interval between consecutive cumulative
probabilities. -/
theorem act_with_boltzmann_correct (body : Body) (state : σ) (net : σ → List ℝ)
    (tau : ℝ) (u : ℝ) (htau : 0 < tau) (hdim : 1 ≤ body.action_dim)
    (hout : (net state).length = body.action_dim) (hu : u ∈ Set.Ico (0 : ℝ) 1) :
    ((softmax ((net state).map (fun q => q / tau))).length = body.action_dim)
    ∧ ((softmax ((net state).map (fun q => q / tau))).sum = 1)
    ∧ (∀ p ∈ softmax ((net state).map (fun q => q / tau)), 0 < p)
    ∧ (act_with_boltzmann body state net tau u
        = npChoice (softmax ((net state).map (fun q => q / tau))) u)
    ∧ (act_with_boltzmann body state net tau u < body.action_dim)
    ∧ (∀ a, a < body.action_dim →
        (act_with_boltzmann body state net tau u = a ↔
          ((softmax ((net state).map (fun q => q / tau))).take a).sum ≤ u
          ∧ u < ((softmax ((net state).map (fun q => q / tau))).take (a + 1)).sum)) := by
  obtain ⟨hu0, hu1⟩ := hu
  have hne : (net state).map (fun q => q / tau) ≠ [] := by
    intro h
    have := congrArg List.length h
    simp [hout] at this
    omega
  have hlen : (softmax ((net state).map (fun q => q / tau))).length = body.action_dim := by
    simp [softmax, hout]
  have hsum := softmax_sum_one _ hne
  have hpos := softmax_pos _ hne
  refine ⟨hlen, hsum, hpos, rfl, ?_, ?_⟩
  · rw [act_with_boltzmann, ← hlen]
    exact npChoice_lt_length _ u hu0 (by rw [hsum]; exact hu1)
  · intro a ha
    rw [act_with_boltzmann]
    exact npChoice_interval _ u a (fun x hx => le_of_lt (hpos x hx)) hu0 (by rwa [hlen])

theorem act_with_boltzmann_correct_witness :
    (0 : ℝ) < 1 ∧ 1 ≤ Body.action_dim ⟨2⟩
    ∧ (((fun _ => [0, 0]) (0 : ℕ) : List ℝ).length = Body.action_dim ⟨2⟩)
    ∧ (1 / 2 : ℝ) ∈ Set.Ico (0 : ℝ) 1
    ∧ act_with_boltzmann ⟨2⟩ (0 : ℕ) (fun _ => ([0, 0] : List ℝ)) 1 (1/2)
        < Body.action_dim ⟨2⟩ :=
  ⟨by norm_num, by norm_num, by norm_num, by norm_num [Set.mem_Ico],
    (act_with_boltzmann_correct ⟨2⟩ (0 : ℕ) (fun _ => ([0, 0] : List ℝ)) 1 (1/2)
      (by norm_num) (by norm_num) (by norm_num)
      (by norm_num [Set.mem_Ico])).2.2.2.2.1⟩

/-- `F.softplus`: `log(1 + exp x)`. -/
noncomputable def softplus (x : ℝ) : ℝ := Real.log (1 + Real.exp x)

/-- The standard deviation passed to `Normal` by `act_with_gaussian`:
`sigma = F.softplus(sigma) + 1e-5`. -/
noncomputable def gaussian_sigma (sigma : ℝ) : ℝ := softplus sigma + 1 / 100000

/-- `torch.clamp(x, lo, hi)`. -/
def clamp (x lo hi : ℝ) : ℝ := min (max x lo) hi

/-- `act_with_gaussian` from `algorithm_util.py`, componentwise over the
action vector: the net outputs the mean `mu` and raw `sigma`; the sampled
action `Normal(mu, gaussian_sigma sigma).sample()` is modelled as
`mu + gaussian_sigma sigma * z` with `z` the standard-normal draw, then
clamped to `[-continuous_action_clip, continuous_action_clip]`. -/
noncomputable def act_with_gaussian (mu sigma : List ℝ)
    (continuous_action_clip : ℝ) (z : List ℝ) : List ℝ :=
  zipWith3 (fun m s zz => clamp (m + gaussian_sigma s * zz)
    (-continuous_action_clip) continuous_action_clip) mu sigma z

theorem mem_zipWith3 {α β γ δ : Type} (f : α → β → γ → δ) :
    ∀ (as : List α) (bs : List β) (cs : List γ) (d : δ),
    d ∈ zipWith3 f as bs cs → ∃ x y zz, d = f x y zz := by
  intro as
  induction as with
  | nil => intro bs cs d h; simp [zipWith3] at h
  | cons a as ih =>
    intro bs cs d h
    cases bs with
    | nil => simp [zipWith3] at h
    | cons b bs =>
      cases cs with
      | nil => simp [zipWith3] at h
      | cons c cs =>
        simp only [zipWith3, List.mem_cons] at h
        rcases h with h | h
        · exact ⟨a, b, c, h⟩
        · exact ih bs cs d h

/-- Claim C7: in `act_with_gaussian` the standard deviation passed to the
normal distribution is `softplus` of the net's second output plus `1e-5`,
strictly positive for every net output, and every returned action component
lies within `[-continuous_action_clip, continuous_action_clip]`. -/
theorem act_with_gaussian_correct (mu sigma : List ℝ)
    (continuous_action_clip : ℝ) (z : List ℝ)
    (hclip : 0 ≤ continuous_action_clip) :
    (∀ s : ℝ, 0 < softplus s ∧ 0 < gaussian_sigma s)
    ∧ (∀ a ∈ act_with_gaussian mu sigma continuous_action_clip z,
        -continuous_action_clip ≤ a ∧ a ≤ continuous_action_clip) := by
  have hsp : ∀ s : ℝ, 0 < softplus s := by
    intro s
    apply Real.log_pos
    linarith [Real.exp_pos s]
  refine ⟨fun s => ⟨hsp s, by have := hsp s; rw [gaussian_sigma]; linarith⟩, ?_⟩
  intro a ha
  obtain ⟨x, y, zz, hxyz⟩ := mem_zipWith3 _ mu sigma z a ha
  rw [hxyz, clamp]
  constructor
  · exact le_min (le_max_right _ _) (neg_le_self hclip)
  · exact min_le_right _ _

theorem act_with_gaussian_correct_witness :
    (0 : ℝ) ≤ 1
    ∧ ∀ a ∈ act_with_gaussian [0] [0] 1 [0], (-1 : ℝ) ≤ a ∧ a ≤ 1 :=
  ⟨by norm_num, (act_with_gaussian_correct [0] [0] 1 [0] (by norm_num)).2⟩

end SlmLab
